import Mathlib

/-!
Verification of the spam-classifier notebook pipeline
(`part_1_spam_classifier.ipynb`): loader, splitter, vectorizers,
logistic-regression prediction, AUC scoring and feature inspection,
shallowly embedded as Lean definitions with theorems about the
documented behaviour.
-/

namespace SpamClassifier

/-! ## Loader

The notebook loads a tab-separated file into columns `target`/`text` and
encodes the label with `np.where(data["target"] == "spam", 1, 0)`.
The encoding is total: any label string other than the literal `"spam"`
(including `"ham"` and unrecognized strings) becomes `0`; no validation
of labels is performed and the load never aborts on label content. -/

/-- A loaded message record: the raw text and the binary target. -/
structure MsgRec where
  text : String
  target : Nat
deriving DecidableEq

/-- Label encoding of the notebook (np.where on equality with "spam"). -/
def encodeLabel (label : String) : Nat :=
  if label = "spam" then 1 else 0

/-- The load step, on rows already separated into (label, text) pairs.
It mirrors the notebook: every row is encoded, nothing is rejected.
The `Except` wrapper records that the step is in principle fallible; the
actual encoding produces a dataset for every input. -/
def loadDataset (rows : List (String × String)) : Except String (List MsgRec) :=
  Except.ok (rows.map fun r => MsgRec.mk r.2 (encodeLabel r.1))

/-- The loader behaviour claimed by the spec for malformed labels:
every row list containing an unrecognized label makes the load fail. -/
def loaderFailsOnBadLabel : Prop :=
  ∀ rows : List (String × String),
    (∃ r ∈ rows, r.1 ≠ "spam" ∧ r.1 ≠ "ham") →
    ∃ e, loadDataset rows = Except.error e

/-! ## Sorting infrastructure

A structurally recursive stable insertion sort, used to model both the
seed-driven shuffle of `train_test_split` and the `argsort` used for
feature inspection. It is kernel-reducible, so concrete instances can be
settled by `decide`. -/

/-- Insert `x` into `l`, before the first element `y` with `le x y`. -/
def insertLe {α : Type} (le : α → α → Bool) (x : α) : List α → List α
  | [] => [x]
  | y :: ys => if le x y then x :: y :: ys else y :: insertLe le x ys

/-- Stable insertion sort by the boolean relation `le`. -/
def sortLe {α : Type} (le : α → α → Bool) : List α → List α
  | [] => []
  | x :: xs => insertLe le x (sortLe le xs)

/-! ## Splitter

Modelled from the spec: the notebook's split is
`train_test_split(data["text"], data["target"], random_state=0)`, whose
internals (a seed-driven shuffle of row indices followed by a cut at the
train fraction, by default 0.75) live in the external ML library, not in
this repository. The shuffle is modelled as a deterministic permutation
of the row indices obtained by sorting them on a seed-keyed hash, and
the cut keeps `⌊f·n⌋` indices for the train side. -/

/-- Deterministic seed-keyed hash of a row index (linear congruential
mixing, reduced modulo 2^31). -/
def shuffleKey (s i : Nat) : Nat :=
  (1103515245 * (s + i) + 12345) % 2147483648

/-- Total order on row indices induced by the seeded hash, with ties
broken by the index itself. -/
def shuffleLe (s : Nat) (i j : Nat) : Bool :=
  decide (shuffleKey s i < shuffleKey s j) ||
    (decide (shuffleKey s i = shuffleKey s j) && decide (i ≤ j))

/-- The seed-determined permutation of the row indices 0..n-1. -/
def shuffledIndices (s n : Nat) : List Nat :=
  sortLe (shuffleLe s) (List.range n)

/-- Partition of the row indices of an n-row dataset into train indices
and test indices, for train fraction `f` and seed `s`. -/
def splitIndices (n : Nat) (f : ℚ) (s : Nat) : List Nat × List Nat :=
  let idx := shuffledIndices s n
  let nTrain := min n ⌊f * (n : ℚ)⌋₊
  (idx.take nTrain, idx.drop nTrain)

/-- The train/test split of a dataset column: the rows selected by the
train indices and by the test indices, in shuffle order. -/
def trainTestSplit {α : Type} (msgs : List α) (f : ℚ) (s : Nat) :
    List α × List α :=
  ((splitIndices msgs.length f s).1.filterMap fun i => msgs[i]?,
   (splitIndices msgs.length f s).2.filterMap fun i => msgs[i]?)

/-- The notebook's default train fraction (sklearn default 75/25). -/
def defaultTrainFraction : ℚ := 3 / 4

/-! ## Tokenizer and Count vectorizer

Modelled from the spec: `CountVectorizer` lives in the external ML
library, not in this repository. Tokenization is the spec's description:
lowercase, split on non-alphanumeric boundaries, keep tokens of length
at least 2; the vocabulary is the set of distinct train tokens; the
count transform maps a message to the per-vocabulary-token occurrence
counts. -/

/-- Split a character list into maximal runs of alphanumeric characters;
`acc` carries the current run, reversed. -/
def splitRuns : List Char → List Char → List (List Char)
  | [], acc => if acc.isEmpty then [] else [acc.reverse]
  | c :: rest, acc =>
    if c.isAlphanum then splitRuns rest (c :: acc)
    else if acc.isEmpty then splitRuns rest []
    else acc.reverse :: splitRuns rest []

/-- Tokenize a message: lowercase, split on non-alphanumeric boundaries,
keep tokens of at least two characters. -/
def tokenize (s : String) : List String :=
  ((splitRuns (s.data.map Char.toLower) []).filter fun t => 2 ≤ t.length).map
    fun cs => String.mk cs

/-- The Count-strategy vocabulary: all distinct tokens of the train
messages, in first-occurrence order. -/
def countVocab (train : List String) : List String :=
  (train.flatMap tokenize).dedup

/-- The Count-strategy transform: occurrence count of each vocabulary
token in the message. -/
def countTransform (vocab : List String) (msg : String) : List Nat :=
  vocab.map fun t => (tokenize msg).count t

/-! ## TF-IDF vectorizer

Modelled from the spec: `TfidfVectorizer(min_df=3)` is external library
code. Tokens in fewer than 3 train documents are discarded; the raw
weight of a token is its count times log((1+N)/(1+df)) + 1; the vector
is L2-normalized when non-zero. -/

/-- Document frequency: the number of train messages containing the
token. -/
def df (train : List String) (t : String) : Nat :=
  train.countP fun d => decide (t ∈ tokenize d)

/-- The TF-IDF vocabulary with minimum document frequency 3. -/
def tfidfVocab (train : List String) : List String :=
  (countVocab train).filter fun t => decide (3 ≤ df train t)

/-- Smoothed inverse document frequency, log((1+N)/(1+df)) + 1. -/
noncomputable def idf (train : List String) (t : String) : ℝ :=
  Real.log ((1 + (train.length : ℝ)) / (1 + (df train t : ℝ))) + 1

/-- The raw (unnormalized) TF-IDF weights of a message. -/
noncomputable def rawTfidf (train : List String) (msg : String) : List ℝ :=
  (tfidfVocab train).map fun t => ((tokenize msg).count t : ℝ) * idf train t

/-- Euclidean norm of a feature vector. -/
noncomputable def l2norm (v : List ℝ) : ℝ :=
  Real.sqrt (v.map fun x => x ^ 2).sum

/-- The TF-IDF transform: raw weights, L2-normalized when non-zero. -/
noncomputable def tfidfTransform (train : List String) (msg : String) :
    List ℝ :=
  let v := rawTfidf train msg
  if l2norm v = 0 then v else v.map fun x => x / l2norm v

/-! ## Logistic-regression model, prediction and AUC

Modelled from the spec: `LogisticRegression.predict` and
`roc_auc_score` are external library code. A fitted model is a
coefficient vector plus intercept; `predict` thresholds the decision
value at 0 (equivalently, the predicted probability at 0.5); the AUC is
the tie-corrected pairwise ranking statistic. The notebook's evaluation
step (cells computing `predictions = model.predict(...)` and then
`roc_auc_score(y_test, predictions)`) feeds the hard 0/1 labels, not
continuous scores, into the AUC. -/

/-- A fitted logistic-regression model: coefficients and intercept. -/
structure LogRegModel where
  coef : List ℚ
  intercept : ℚ

/-- Dot product of two feature vectors. -/
def dot (w x : List ℚ) : ℚ :=
  (List.zipWith (· * ·) w x).sum

/-- The decision value w·x + b (the log-odds of class 1). -/
def decisionFunction (m : LogRegModel) (x : List ℚ) : ℚ :=
  dot m.coef x + m.intercept

/-- Hard prediction: class 1 when the decision value is positive,
equivalently when the predicted probability exceeds 0.5. -/
def predictLabel (m : LogRegModel) (x : List ℚ) : Nat :=
  if 0 < decisionFunction m x then 1 else 0

/-- The scores of the instances whose true label is 1. -/
def posScores (y : List Nat) (sc : List ℚ) : List ℚ :=
  ((y.zip sc).filter fun p => p.1 == 1).map Prod.snd

/-- The scores of the instances whose true label is not 1. -/
def negScores (y : List Nat) (sc : List ℚ) : List ℚ :=
  ((y.zip sc).filter fun p => !(p.1 == 1)).map Prod.snd

/-- Contribution of one (positive, negative) pair to the AUC: 1 when the
positive outranks the negative, 1/2 on a tie, 0 otherwise. -/
def pairScore (p q : ℚ) : ℚ :=
  if q < p then 1 else if q = p then 1 / 2 else 0

/-- Area under the ROC curve as the normalized pairwise ranking
statistic over all (positive, negative) instance pairs. -/
def rocAucScore (y : List Nat) (sc : List ℚ) : ℚ :=
  ((posScores y sc).map fun p =>
    ((negScores y sc).map fun q => pairScore p q).sum).sum /
    (((posScores y sc).length : ℚ) * ((negScores y sc).length : ℚ))

/-- The notebook's evaluation step: predict hard 0/1 labels on the test
features, then score them with AUC against the true labels. -/
def notebookEvaluate (m : LogRegModel) (xTest : List (List ℚ))
    (yTest : List Nat) : ℚ :=
  rocAucScore yTest (xTest.map fun x => ((predictLabel m x : ℕ) : ℚ))

/-! ## Feature-importance inspection

Modelled from the spec: the notebook runs `model.coef_[0].argsort()` and
reads the first ten entries (most negative coefficients) and the last
ten reversed (most positive, largest first); the spec stipulates the
sort is stable, ties broken by the original feature index. -/

/-- Coefficient at a feature index (0 outside the vector). -/
def coefGet (coef : List ℚ) (i : Nat) : ℚ :=
  coef.getD i 0

/-- Argsort order on feature indices: by coefficient value, ties broken
by the original index. -/
def coefLe (coef : List ℚ) (i j : Nat) : Bool :=
  decide (coefGet coef i < coefGet coef j) ||
    (decide (coefGet coef i = coefGet coef j) && decide (i ≤ j))

/-- The argsort of the coefficient vector: all feature indices in
ascending coefficient order. -/
def argsortCoef (coef : List ℚ) : List Nat :=
  sortLe (coefLe coef) (List.range coef.length)

/-- The ten indices with the most negative coefficients, ascending. -/
def smallestCoefIndices (coef : List ℚ) : List Nat :=
  (argsortCoef coef).take 10

/-- The ten indices with the most positive coefficients, largest
first (the notebook's [:-11:-1] slice). -/
def largestCoefIndices (coef : List ℚ) : List Nat :=
  ((argsortCoef coef).drop (coef.length - 10)).reverse

/-- The feature names of the ten most negative coefficients. -/
def smallestCoefs (names : List String) (coef : List ℚ) : List String :=
  (smallestCoefIndices coef).map fun i => names.getD i ""

/-- The feature names of the ten most positive coefficients. -/
def largestCoefs (names : List String) (coef : List ℚ) : List String :=
  (largestCoefIndices coef).map fun i => names.getD i ""

/-! ## Post-fit pipeline state

Modelled from the spec: after fit, the Vocabulary/Model pair is frozen;
`transform`, `predict` and scoring read it but never write it. The
fitted pair is a state value and each pipeline operation returns its
output together with the (unchanged) state. -/

/-- The fitted Vocabulary/Model pair shared by all post-fit calls. -/
structure FittedState where
  vocab : List String
  coef : List ℚ
  intercept : ℚ

/-- The post-fit operations the notebook performs: vectorizing new
text, single-message prediction, and batch scoring. -/
inductive PipelineOp where
  | transform (text : String)
  | predictMsg (text : String)
  | scoreBatch (texts : List String) (y : List Nat)

/-- Vectorize a message with the fitted vocabulary. -/
def vectorizeWith (st : FittedState) (text : String) : List ℚ :=
  (countTransform st.vocab text).map fun n => (n : ℚ)

/-- Run one post-fit operation: produce its numeric output and the
resulting state. -/
def applyOp (st : FittedState) (op : PipelineOp) : FittedState × List ℚ :=
  match op with
  | .transform t => (st, vectorizeWith st t)
  | .predictMsg t =>
    (st, [((predictLabel ⟨st.coef, st.intercept⟩ (vectorizeWith st t) : ℕ) : ℚ)])
  | .scoreBatch ts y =>
    (st, [rocAucScore y (ts.map fun t =>
      ((predictLabel ⟨st.coef, st.intercept⟩ (vectorizeWith st t) : ℕ) : ℚ))])

/-- Run a sequence of post-fit operations, threading the state. -/
def runOps (st : FittedState) (ops : List PipelineOp) : FittedState :=
  ops.foldl (fun s op => (applyOp s op).1) st

end SpamClassifier

namespace SpamClassifier

/-- C1 (counterexample): the loader does not fail on unrecognized labels.
At the concrete input [("foo", "hello")] the load succeeds, refuting the
claim that a row with a label outside {"spam", "ham"} aborts the load. -/
theorem C1_loader_abort_counterexample : ¬ loaderFailsOnBadLabel := by
  intro h
  obtain ⟨e, he⟩ := h [("foo", "hello")]
    ⟨("foo", "hello"), by simp, by simp, by simp⟩
  simp [loadDataset] at he

/-- C1 (amended): for every row whose label is neither "spam" nor "ham",
the load nevertheless succeeds, produces one record per row, and encodes
that row's label silently as 0 (ham). -/
theorem C1_loader_accepts_bad_label (rows : List (String × String))
    (r : String × String) (hr : r ∈ rows)
    (hspam : r.1 ≠ "spam") (hham : r.1 ≠ "ham") :
    ∃ ds, loadDataset rows = Except.ok ds ∧ ds.length = rows.length ∧
      MsgRec.mk r.2 0 ∈ ds := by
  refine ⟨_, rfl, by simp [loadDataset], ?_⟩
  have h0 : encodeLabel r.1 = 0 := by simp [encodeLabel, hspam]
  exact List.mem_map.mpr ⟨r, hr, by rw [h0]⟩

/-- C1 witness: the amended statement applied at the concrete input
[("foo", "hello")]. -/
theorem C1_loader_accepts_bad_label_witness :
    ∃ ds, loadDataset [("foo", "hello")] = Except.ok ds ∧
      ds.length = [("foo", "hello")].length ∧ MsgRec.mk "hello" 0 ∈ ds :=
  C1_loader_accepts_bad_label [("foo", "hello")] ("foo", "hello")
    (by simp) (by simp) (by simp)

/-- C8: loading R well-formed rows yields exactly R records, and each
record's target decodes the label to exactly one binary value: it is 1
exactly when that row's label is "spam" and 0 exactly when it is "ham". -/
theorem C8_load_wellformed (rows : List (String × String))
    (hwf : ∀ r ∈ rows, r.1 = "spam" ∨ r.1 = "ham") :
    ∃ ds, loadDataset rows = Except.ok ds ∧ ds.length = rows.length ∧
      ∀ i, i < rows.length →
        ((ds.getD i (MsgRec.mk "" 0)).target = 1 ↔
          (rows.getD i ("", "")).1 = "spam") ∧
        ((ds.getD i (MsgRec.mk "" 0)).target = 0 ↔
          (rows.getD i ("", "")).1 = "ham") := by
  refine ⟨_, rfl, by simp [loadDataset], ?_⟩
  intro i hi
  have hrow : rows.getD i ("", "") = rows[i] := List.getD_eq_getElem rows _ hi
  have hds : ((rows.map fun r => MsgRec.mk r.2 (encodeLabel r.1)).getD i
      (MsgRec.mk "" 0)) = MsgRec.mk rows[i].2 (encodeLabel rows[i].1) := by
    have hi' : i < (rows.map fun r => MsgRec.mk r.2 (encodeLabel r.1)).length := by
      simpa using hi
    rw [List.getD_eq_getElem _ _ hi']
    simp
  rw [hrow, hds]
  rcases hwf rows[i] (List.getElem_mem hi) with hs | hh
  · rw [hs]
    constructor
    · simp [encodeLabel]
    · constructor
      · intro h0
        simp [encodeLabel] at h0
      · intro h0
        simp at h0
  · rw [hh]
    constructor
    · constructor
      · intro h1
        simp [encodeLabel] at h1
      · intro h1
        simp at h1
    · simp [encodeLabel]

/-- C8 witness: the theorem applied at the concrete well-formed input
[("spam", "a"), ("ham", "b")]; the load yields two records. -/
theorem C8_load_wellformed_witness :
    ∃ ds, loadDataset [("spam", "a"), ("ham", "b")] = Except.ok ds ∧
      ds.length = 2 := by
  obtain ⟨ds, h1, h2, -⟩ := C8_load_wellformed [("spam", "a"), ("ham", "b")]
    (by intro r hr; simp at hr; rcases hr with h | h <;> simp [h])
  exact ⟨ds, h1, h2⟩

/-- C10: the label-encoding step is total and never raises: the load
succeeds on every row list, produces one record per row, every label
other than "spam" (recognized or not) encodes to 0, and the i-th record
carries exactly the encoding of the i-th label. -/
theorem C10_label_encoding_total (rows : List (String × String)) :
    ∃ ds, loadDataset rows = Except.ok ds ∧ ds.length = rows.length ∧
      (∀ l : String, l ≠ "spam" → encodeLabel l = 0) ∧
      ∀ i, i < rows.length →
        (ds.getD i (MsgRec.mk "" 0)).target =
          encodeLabel (rows.getD i ("", "")).1 := by
  refine ⟨_, rfl, by simp [loadDataset],
    ?_, ?_⟩
  · intro l hl
    simp [encodeLabel, hl]
  · intro i hi
    have hrow : rows.getD i ("", "") = rows[i] := List.getD_eq_getElem rows _ hi
    have hi' : i < (rows.map fun r => MsgRec.mk r.2 (encodeLabel r.1)).length := by
      simpa using hi
    rw [hrow, List.getD_eq_getElem _ _ hi']
    simp

/-- C10 witness: the theorem applied at the concrete input
[("unknown", "x")], whose unrecognized label loads silently as 0. -/
theorem C10_label_encoding_total_witness :
    (∃ ds, loadDataset [("unknown", "x")] = Except.ok ds ∧
      ds.length = 1) ∧ encodeLabel "unknown" = 0 := by
  obtain ⟨ds, h1, h2, h3, -⟩ := C10_label_encoding_total [("unknown", "x")]
  exact ⟨⟨ds, h1, h2⟩, h3 "unknown" (by simp)⟩

/-! ## Insertion-sort lemmas -/

theorem insertLe_perm {α : Type} (le : α → α → Bool) (x : α) (l : List α) :
    (insertLe le x l).Perm (x :: l) := by
  induction l with
  | nil => simp [insertLe]
  | cons y ys ih =>
    by_cases h : le x y
    · simp [insertLe, h]
    · simp only [insertLe, h, Bool.false_eq_true, if_false]
      exact (ih.cons y).trans (List.Perm.swap x y ys)

theorem sortLe_perm {α : Type} (le : α → α → Bool) (l : List α) :
    (sortLe le l).Perm l := by
  induction l with
  | nil => simp [sortLe]
  | cons x xs ih => exact (insertLe_perm le x (sortLe le xs)).trans (ih.cons x)

theorem insertLe_pairwise {α : Type} (le : α → α → Bool)
    (htrans : ∀ a b c, le a b = true → le b c = true → le a c = true)
    (htotal : ∀ a b, (le a b || le b a) = true) (x : α) (l : List α)
    (hl : l.Pairwise fun a b => le a b = true) :
    (insertLe le x l).Pairwise fun a b => le a b = true := by
  induction l with
  | nil => simp [insertLe]
  | cons y ys ih =>
    rw [List.pairwise_cons] at hl
    obtain ⟨hy, hys⟩ := hl
    by_cases h : le x y
    · simp only [insertLe, h, if_true]
      rw [List.pairwise_cons]
      refine ⟨?_, List.pairwise_cons.mpr ⟨hy, hys⟩⟩
      intro z hz
      rcases List.mem_cons.mp hz with hz | hz
      · rw [hz]; exact h
      · exact htrans x y z h (hy z hz)
    · simp only [insertLe, h, Bool.false_eq_true, if_false]
      rw [List.pairwise_cons]
      refine ⟨?_, ih hys⟩
      intro z hz
      have hz' : z ∈ x :: ys := (insertLe_perm le x ys).mem_iff.mp hz
      rcases List.mem_cons.mp hz' with hz' | hz'
      · rw [hz']
        rcases Bool.or_eq_true_iff.mp (htotal x y) with h1 | h1
        · exact absurd h1 h
        · exact h1
      · exact hy z hz'

theorem sortLe_pairwise {α : Type} (le : α → α → Bool)
    (htrans : ∀ a b c, le a b = true → le b c = true → le a c = true)
    (htotal : ∀ a b, (le a b || le b a) = true) (l : List α) :
    (sortLe le l).Pairwise fun a b => le a b = true := by
  induction l with
  | nil => simp [sortLe]
  | cons x xs ih => exact insertLe_pairwise le htrans htotal x (sortLe le xs) ih

/-! ## Splitter lemmas -/

theorem shuffledIndices_perm (s n : Nat) :
    (shuffledIndices s n).Perm (List.range n) :=
  sortLe_perm _ _

theorem shuffledIndices_nodup (s n : Nat) : (shuffledIndices s n).Nodup :=
  (shuffledIndices_perm s n).symm.nodup (List.nodup_range n)

theorem shuffledIndices_length (s n : Nat) :
    (shuffledIndices s n).length = n := by
  rw [(shuffledIndices_perm s n).length_eq, List.length_range]

theorem mem_shuffledIndices {s n i : Nat} (h : i ∈ shuffledIndices s n) :
    i < n :=
  List.mem_range.mp ((shuffledIndices_perm s n).mem_iff.mp h)

theorem length_filterMap_getElem {α : Type} (msgs : List α) (l : List Nat)
    (h : ∀ i ∈ l, i < msgs.length) :
    (l.filterMap fun i => msgs[i]?).length = l.length := by
  induction l with
  | nil => simp
  | cons a as ih =>
    have ha : a < msgs.length := h a (List.mem_cons_self a as)
    have hsome : msgs[a]? = some msgs[a] := List.getElem?_eq_getElem ha
    rw [List.filterMap_cons, hsome]
    simp only [List.length_cons]
    rw [ih fun i hi => h i (List.mem_cons_of_mem a hi)]

theorem trainTestSplit_length_fst {α : Type} (msgs : List α) (f : ℚ)
    (s : Nat) :
    (trainTestSplit msgs f s).1.length =
      min msgs.length ⌊f * (msgs.length : ℚ)⌋₊ := by
  unfold trainTestSplit splitIndices
  simp only
  rw [length_filterMap_getElem]
  · rw [List.length_take, shuffledIndices_length]
    omega
  · intro i hi
    exact mem_shuffledIndices (List.mem_of_mem_take hi)

theorem trainTestSplit_length_snd {α : Type} (msgs : List α) (f : ℚ)
    (s : Nat) :
    (trainTestSplit msgs f s).2.length =
      msgs.length - min msgs.length ⌊f * (msgs.length : ℚ)⌋₊ := by
  unfold trainTestSplit splitIndices
  simp only
  rw [length_filterMap_getElem]
  · rw [List.length_drop, shuffledIndices_length]
  · intro i hi
    exact mem_shuffledIndices (List.mem_of_mem_drop hi)

/-- C2: the Splitter is deterministic in (D, f, s); its train and test
index sets are disjoint; the train and test parts always cover D exactly
(|Train| + |Test| = |D|); and at the default fraction 3/4 a dataset whose
size is divisible by 4 splits exactly 75% train / 25% test. -/
theorem C2_splitter_deterministic_partition (D : List String) (f : ℚ)
    (s : Nat) :
    trainTestSplit D f s = trainTestSplit D f s ∧
    List.Disjoint (splitIndices D.length f s).1 (splitIndices D.length f s).2 ∧
    (trainTestSplit D f s).1.length + (trainTestSplit D f s).2.length =
      D.length ∧
    (4 ∣ D.length →
      4 * (trainTestSplit D defaultTrainFraction s).1.length = 3 * D.length ∧
      4 * (trainTestSplit D defaultTrainFraction s).2.length = D.length) := by
  refine ⟨rfl, ?_, ?_, ?_⟩
  · unfold splitIndices
    simp only
    exact List.disjoint_take_drop (shuffledIndices_nodup s D.length)
      (le_refl _)
  · rw [trainTestSplit_length_fst, trainTestSplit_length_snd]
    omega
  · intro hdvd
    obtain ⟨k, hk⟩ := hdvd
    have hfloor : ⌊defaultTrainFraction * (D.length : ℚ)⌋₊ = 3 * k := by
      have hq : defaultTrainFraction * (D.length : ℚ) = ((3 * k : ℕ) : ℚ) := by
        rw [hk, defaultTrainFraction]
        push_cast
        ring
      rw [hq, Nat.floor_natCast]
    rw [trainTestSplit_length_fst, trainTestSplit_length_snd, hfloor]
    omega

/-- C2 witness: the theorem applied to the concrete four-row dataset
["a", "b", "c", "d"] with the default fraction and seed 0. -/
theorem C2_splitter_deterministic_partition_witness :
    4 * (trainTestSplit ["a", "b", "c", "d"] defaultTrainFraction 0).1.length =
      3 * 4 ∧
    4 * (trainTestSplit ["a", "b", "c", "d"] defaultTrainFraction 0).2.length =
      4 := by
  have h := (C2_splitter_deterministic_partition ["a", "b", "c", "d"]
    defaultTrainFraction 0).2.2.2 (by simp)
  simpa using h

/-- C3: every token of the Count-strategy vocabulary occurs in at least
one Train message, and the Count transform of a message made only of
out-of-vocabulary tokens is the zero vector. -/
theorem C3_vocab_from_train_and_oov_zero (train : List String) :
    (∀ t ∈ countVocab train, ∃ d ∈ train, t ∈ tokenize d) ∧
    ∀ msg, (∀ t ∈ tokenize msg, t ∉ countVocab train) →
      countTransform (countVocab train) msg =
        List.replicate (countVocab train).length 0 := by
  constructor
  · intro t ht
    exact List.mem_flatMap.mp (List.mem_dedup.mp ht)
  · intro msg hmsg
    refine List.eq_replicate_iff.mpr ⟨by simp [countTransform], ?_⟩
    intro x hx
    obtain ⟨t, ht, rfl⟩ := List.mem_map.mp hx
    rw [List.count_eq_zero]
    intro habs
    exact hmsg t habs ht

/-- C3 witness: the theorem applied to the concrete train set
["ab cd"] and the fully out-of-vocabulary message "xy zt". -/
theorem C3_vocab_from_train_and_oov_zero_witness :
    countTransform (countVocab ["ab cd"]) "xy zt" =
      List.replicate (countVocab ["ab cd"]).length 0 :=
  (C3_vocab_from_train_and_oov_zero ["ab cd"]).2 "xy zt" (by decide)

/-! ## TF-IDF lemmas -/

theorem sumSq_nonneg (v : List ℝ) : 0 ≤ (v.map fun x => x ^ 2).sum := by
  induction v with
  | nil => simp
  | cons x xs ih =>
    simp only [List.map_cons, List.sum_cons]
    exact add_nonneg (sq_nonneg x) ih

theorem sumSq_eq_zero {v : List ℝ} (h : (v.map fun x => x ^ 2).sum = 0) :
    ∀ x ∈ v, x = 0 := by
  induction v with
  | nil => simp
  | cons y ys ih =>
    simp only [List.map_cons, List.sum_cons] at h
    have hy : y ^ 2 = 0 ∧ (ys.map fun x => x ^ 2).sum = 0 :=
      (add_eq_zero_iff_of_nonneg (sq_nonneg y) (sumSq_nonneg ys)).mp h
    intro x hx
    rcases List.mem_cons.mp hx with hx | hx
    · rw [hx]
      exact pow_eq_zero_iff (by norm_num) |>.mp hy.1
    · exact ih hy.2 x hx

theorem sumSq_map_div (v : List ℝ) (s : ℝ) :
    ((v.map fun x => x / s).map fun x => x ^ 2).sum =
      (v.map fun x => x ^ 2).sum / s ^ 2 := by
  induction v with
  | nil => simp
  | cons y ys ih =>
    simp only [List.map_cons, List.sum_cons, ih, div_pow]
    rw [div_add_div_same]

/-- C4: the TF-IDF vocabulary with min_df = 3 contains no token with
document frequency below 3; the inverse document frequency is
log((1+N)/(1+df)) + 1; and the transform of a message with a non-zero
resulting vector has L2 norm exactly 1. -/
theorem C4_tfidf_mindf_idf_norm (train : List String) (msg : String) :
    (∀ t ∈ tfidfVocab train, 3 ≤ df train t) ∧
    (∀ t, idf train t =
      Real.log ((1 + (train.length : ℝ)) / (1 + (df train t : ℝ))) + 1) ∧
    ((∃ x ∈ tfidfTransform train msg, x ≠ 0) →
      l2norm (tfidfTransform train msg) = 1) := by
  refine ⟨?_, fun t => rfl, ?_⟩
  · intro t ht
    exact of_decide_eq_true (List.mem_filter.mp ht).2
  · rintro ⟨x, hx, hx0⟩
    by_cases h0 : l2norm (rawTfidf train msg) = 0
    · exfalso
      have hv : tfidfTransform train msg = rawTfidf train msg := by
        simp [tfidfTransform, h0]
      rw [hv] at hx
      have hsum : ((rawTfidf train msg).map fun x => x ^ 2).sum = 0 := by
        have hle := Real.sqrt_eq_zero'.mp h0
        exact le_antisymm hle (sumSq_nonneg _)
      exact hx0 (sumSq_eq_zero hsum x hx)
    · have hs_pos : 0 < l2norm (rawTfidf train msg) :=
        lt_of_le_of_ne (Real.sqrt_nonneg _) (Ne.symm h0)
      have hv : tfidfTransform train msg =
          (rawTfidf train msg).map fun y => y / l2norm (rawTfidf train msg) := by
        simp [tfidfTransform, h0]
      rw [hv]
      unfold l2norm
      rw [sumSq_map_div, Real.sqrt_div' _ (sq_nonneg _),
        Real.sqrt_sq (Real.sqrt_nonneg _)]
      exact div_self (by simpa [l2norm] using h0)

/-- Concrete TF-IDF evaluation: on the train set ["ab", "ab", "ab"] the
token "ab" has document frequency 3 and idf 1, so the message "ab"
transforms to the unit vector [1]. -/
theorem tfidfTransform_concrete :
    tfidfTransform ["ab", "ab", "ab"] "ab" = [1] := by
  have hvocab : tfidfVocab ["ab", "ab", "ab"] = ["ab"] := by decide
  have hcount : (tokenize "ab").count "ab" = 1 := by decide
  have hdf : df ["ab", "ab", "ab"] "ab" = 3 := by decide
  have hidf : idf ["ab", "ab", "ab"] "ab" = 1 := by
    unfold idf
    rw [hdf]
    norm_num [Real.log_one]
  have hraw : rawTfidf ["ab", "ab", "ab"] "ab" = [1] := by
    unfold rawTfidf
    rw [hvocab]
    simp [hcount, hidf]
  have hl2 : l2norm [(1 : ℝ)] = 1 := by
    unfold l2norm
    simp [Real.sqrt_one]
  simp only [tfidfTransform]
  rw [hraw, hl2]
  norm_num

/-- C4 witness: the theorem applied to the concrete train set
["ab", "ab", "ab"] and message "ab", whose TF-IDF vector is non-zero. -/
theorem C4_tfidf_mindf_idf_norm_witness :
    l2norm (tfidfTransform ["ab", "ab", "ab"] "ab") = 1 :=
  (C4_tfidf_mindf_idf_norm ["ab", "ab", "ab"] "ab").2.2
    ⟨1, by rw [tfidfTransform_concrete]; simp, one_ne_zero⟩

/-! ## AUC lemmas -/

theorem sum_map_const_val {β : Type} (l : List β) (f : β → ℚ) (c : ℚ)
    (h : ∀ x ∈ l, f x = c) : (l.map f).sum = (l.length : ℚ) * c := by
  induction l with
  | nil => simp
  | cons x xs ih =>
    simp only [List.map_cons, List.sum_cons, List.length_cons]
    rw [h x (List.mem_cons_self x xs), ih fun z hz => h z (List.mem_cons_of_mem x hz)]
    push_cast
    ring

theorem pairScore_strictMono {φ : ℚ → ℚ} (hφ : StrictMono φ) (p q : ℚ) :
    pairScore (φ p) (φ q) = pairScore p q := by
  unfold pairScore
  by_cases h1 : q < p
  · rw [if_pos (hφ h1), if_pos h1]
  · rw [if_neg fun hc => h1 (hφ.lt_iff_lt.mp hc), if_neg h1]
    by_cases h2 : q = p
    · rw [if_pos (by rw [h2]), if_pos h2]
    · rw [if_neg fun hc => h2 (hφ.injective hc), if_neg h2]

theorem filter_zip_map (φ : ℚ → ℚ) (pred : Nat → Bool) (y : List Nat)
    (sc : List ℚ) :
    ((y.zip (sc.map φ)).filter fun p => pred p.1).map Prod.snd =
      ((((y.zip sc).filter fun p => pred p.1).map Prod.snd).map φ) := by
  induction y generalizing sc with
  | nil => simp
  | cons a ys ih =>
    cases sc with
    | nil => simp
    | cons b bs =>
      simp only [List.map_cons, List.zip_cons_cons, List.filter_cons]
      by_cases h : pred a
      · simp [h, ih bs]
      · simp [h, ih bs]

theorem posScores_map (y : List Nat) (sc : List ℚ) (φ : ℚ → ℚ) :
    posScores y (sc.map φ) = (posScores y sc).map φ :=
  filter_zip_map φ (fun n => n == 1) y sc

theorem negScores_map (y : List Nat) (sc : List ℚ) (φ : ℚ → ℚ) :
    negScores y (sc.map φ) = (negScores y sc).map φ :=
  filter_zip_map φ (fun n => !(n == 1)) y sc

theorem rocAuc_strictMono_invariant (y : List Nat) (sc : List ℚ)
    (φ : ℚ → ℚ) (hφ : StrictMono φ) :
    rocAucScore y (sc.map φ) = rocAucScore y sc := by
  unfold rocAucScore
  rw [posScores_map, negScores_map]
  simp only [List.length_map, List.map_map]
  congr 1
  refine congrArg List.sum (List.map_congr_left fun p _ => ?_)
  simp only [Function.comp_apply]
  refine congrArg List.sum (List.map_congr_left fun q _ => ?_)
  simp only [Function.comp_apply]
  exact pairScore_strictMono hφ p q

theorem rocAuc_perfect_separation (y : List Nat) (sc : List ℚ)
    (hpos : posScores y sc ≠ []) (hneg : negScores y sc ≠ [])
    (hsep : ∀ p ∈ posScores y sc, ∀ q ∈ negScores y sc, q < p) :
    rocAucScore y sc = 1 := by
  unfold rocAucScore
  rw [sum_map_const_val _ _ (((negScores y sc).length : ℚ) * 1) fun p hp => by
    rw [sum_map_const_val _ _ 1 fun q hq => by
      unfold pairScore
      rw [if_pos (hsep p hp q hq)]]]
  have hP : ((posScores y sc).length : ℚ) ≠ 0 := by
    exact_mod_cast List.length_pos.mpr hpos |>.ne'
  have hN : ((negScores y sc).length : ℚ) ≠ 0 := by
    exact_mod_cast List.length_pos.mpr hneg |>.ne'
  field_simp

theorem mem_of_mem_posScores {y : List Nat} {sc : List ℚ} {p : ℚ}
    (h : p ∈ posScores y sc) : p ∈ sc := by
  obtain ⟨pair, hpair, rfl⟩ := List.mem_map.mp h
  exact (List.of_mem_zip (List.mem_of_mem_filter hpair)).2

theorem mem_of_mem_negScores {y : List Nat} {sc : List ℚ} {q : ℚ}
    (h : q ∈ negScores y sc) : q ∈ sc := by
  obtain ⟨pair, hpair, rfl⟩ := List.mem_map.mp h
  exact (List.of_mem_zip (List.mem_of_mem_filter hpair)).2

theorem rocAuc_uninformative (y : List Nat) (sc : List ℚ) (c : ℚ)
    (hall : ∀ x ∈ sc, x = c)
    (hpos : posScores y sc ≠ []) (hneg : negScores y sc ≠ []) :
    rocAucScore y sc = 1 / 2 := by
  unfold rocAucScore
  rw [sum_map_const_val _ _ (((negScores y sc).length : ℚ) * (1 / 2)) fun p hp => by
    rw [sum_map_const_val _ _ (1 / 2) fun q hq => by
      have hpc : p = c := hall p (mem_of_mem_posScores hp)
      have hqc : q = c := hall q (mem_of_mem_negScores hq)
      unfold pairScore
      rw [hpc, hqc, if_neg (lt_irrefl c), if_pos rfl]]]
  have hP : ((posScores y sc).length : ℚ) ≠ 0 := by
    exact_mod_cast List.length_pos.mpr hpos |>.ne'
  have hN : ((negScores y sc).length : ℚ) ≠ 0 := by
    exact_mod_cast List.length_pos.mpr hneg |>.ne'
  field_simp
  ring

/-- C6: the AUC is invariant under every strictly monotonic transform of
the scores; it is 1 when the positive scores all strictly exceed the
negative scores; and it is exactly 1/2 when the scores carry no
information (all equal), the value it attains in expectation for random
scores. -/
theorem C6_auc_rank_metric :
    (∀ (y : List Nat) (sc : List ℚ) (φ : ℚ → ℚ), StrictMono φ →
      rocAucScore y (sc.map φ) = rocAucScore y sc) ∧
    (∀ (y : List Nat) (sc : List ℚ),
      posScores y sc ≠ [] → negScores y sc ≠ [] →
      (∀ p ∈ posScores y sc, ∀ q ∈ negScores y sc, q < p) →
      rocAucScore y sc = 1) ∧
    (∀ (y : List Nat) (sc : List ℚ) (c : ℚ), (∀ x ∈ sc, x = c) →
      posScores y sc ≠ [] → negScores y sc ≠ [] →
      rocAucScore y sc = 1 / 2) :=
  ⟨rocAuc_strictMono_invariant,
   fun y sc h1 h2 h3 => rocAuc_perfect_separation y sc h1 h2 h3,
   fun y sc c h1 h2 h3 => rocAuc_uninformative y sc c h1 h2 h3⟩

/-- C6 witness: the theorem applied to concrete label/score lists: a
shift transform leaves the AUC unchanged, perfectly separated scores
score 1, and constant scores score 1/2. -/
theorem C6_auc_rank_metric_witness :
    rocAucScore [1, 0] ([(2 : ℚ), 0].map fun x => x + 1) =
      rocAucScore [1, 0] [(2 : ℚ), 0] ∧
    rocAucScore [1, 0] [(2 : ℚ), 0] = 1 ∧
    rocAucScore [1, 0] [(0 : ℚ), 0] = 1 / 2 := by
  refine ⟨C6_auc_rank_metric.1 [1, 0] [(2 : ℚ), 0] (fun x => x + 1)
      (fun a b h => add_lt_add_right h 1),
    C6_auc_rank_metric.2.1 [1, 0] [(2 : ℚ), 0] ?_ ?_ ?_,
    C6_auc_rank_metric.2.2 [1, 0] [(0 : ℚ), 0] 0 ?_ ?_ ?_⟩
  · simp [posScores]
  · simp [negScores]
  · intro p hp q hq
    simp [posScores] at hp
    simp [negScores] at hq
    rw [hp, hq]
    norm_num
  · intro x hx
    fin_cases hx <;> rfl
  · simp [posScores]
  · simp [negScores]

/-- C5: the evaluation step scores the model's hard 0/1 predicted labels
(the output of predict under the 0.5 probability threshold, i.e. a
positive decision value), not continuous scores: the notebook's AUC
equals the AUC of the thresholded labels, every predicted label is 0 or
1, and there is a model and test set on which this differs from the AUC
of the continuous decision scores. -/
theorem C5_eval_on_hard_predictions (m : LogRegModel)
    (xTest : List (List ℚ)) (yTest : List Nat) :
    notebookEvaluate m xTest yTest =
      rocAucScore yTest (xTest.map fun x =>
        if 0 < decisionFunction m x then (1 : ℚ) else 0) ∧
    (∀ x, predictLabel m x = 0 ∨ predictLabel m x = 1) ∧
    ∃ (m' : LogRegModel) (x' : List (List ℚ)) (y' : List Nat),
      notebookEvaluate m' x' y' ≠
        rocAucScore y' (x'.map fun x => decisionFunction m' x) := by
  refine ⟨?_, ?_, ?_⟩
  · unfold notebookEvaluate
    congr 1
    refine List.map_congr_left fun x _ => ?_
    simp only [predictLabel, apply_ite (fun n : ℕ => (n : ℚ))]
    norm_num
  · intro x
    unfold predictLabel
    by_cases h : 0 < decisionFunction m x
    · exact Or.inr (if_pos h)
    · exact Or.inl (if_neg h)
  · refine ⟨⟨[1], 0⟩, [[5], [-1], [-2]], [1, 1, 0], ?_⟩
    have h1 : notebookEvaluate ⟨[1], 0⟩ [[5], [-1], [-2]] [1, 1, 0] =
        3 / 4 := by
      norm_num [notebookEvaluate, rocAucScore, posScores, negScores,
        pairScore, predictLabel, decisionFunction, dot]
    have h2 : rocAucScore [1, 1, 0] ([[5], [-1], [-2]].map fun x =>
        decisionFunction ⟨[1], 0⟩ x) = 1 := by
      norm_num [rocAucScore, posScores, negScores, pairScore,
        decisionFunction, dot]
    rw [h1, h2]
    norm_num

/-! ## Feature-importance lemmas -/

theorem coefLe_trans (coef : List ℚ) :
    ∀ a b c, coefLe coef a b = true → coefLe coef b c = true →
      coefLe coef a c = true := by
  intro a b c hab hbc
  simp only [coefLe, Bool.or_eq_true, Bool.and_eq_true,
    decide_eq_true_eq] at hab hbc ⊢
  rcases hab with h1 | ⟨h1, h2⟩ <;> rcases hbc with h3 | ⟨h3, h4⟩
  · exact Or.inl (h1.trans h3)
  · exact Or.inl (h3 ▸ h1)
  · exact Or.inl (h1 ▸ h3)
  · exact Or.inr ⟨h1.trans h3, h2.trans h4⟩

theorem coefLe_total (coef : List ℚ) :
    ∀ a b, (coefLe coef a b || coefLe coef b a) = true := by
  intro a b
  simp only [coefLe, Bool.or_eq_true, Bool.and_eq_true, decide_eq_true_eq]
  rcases lt_trichotomy (coefGet coef a) (coefGet coef b) with h | h | h
  · exact Or.inl (Or.inl h)
  · by_cases hij : a ≤ b
    · exact Or.inl (Or.inr ⟨h, hij⟩)
    · exact Or.inr (Or.inr ⟨h.symm, le_of_not_le hij⟩)
  · exact Or.inr (Or.inl h)

theorem argsortCoef_perm (coef : List ℚ) :
    (argsortCoef coef).Perm (List.range coef.length) :=
  sortLe_perm _ _

theorem argsortCoef_sorted (coef : List ℚ) :
    (argsortCoef coef).Pairwise fun i j => coefLe coef i j = true :=
  sortLe_pairwise _ (coefLe_trans coef) (coefLe_total coef) _

theorem mem_argsortCoef {coef : List ℚ} {i : Nat} (h : i < coef.length) :
    i ∈ argsortCoef coef :=
  (argsortCoef_perm coef).mem_iff.mpr (List.mem_range.mpr h)

/-- C7: feature-importance inspection is the argsort of the coefficient
vector with ties broken by the original feature index: the ten smallest
entries are listed in ascending coefficient order and the ten largest in
descending order; every index outside the smallest (resp. largest) list
has a coefficient at least (resp. at most) every listed one; and the
extracted token lists are exactly the feature names at those indices. -/
theorem C7_feature_importance (coef : List ℚ) :
    ((smallestCoefIndices coef).Pairwise fun i j => coefLe coef i j = true) ∧
    ((largestCoefIndices coef).Pairwise fun i j => coefLe coef j i = true) ∧
    (∀ i ∈ smallestCoefIndices coef, ∀ j, j < coef.length →
      j ∉ smallestCoefIndices coef → coefLe coef i j = true) ∧
    (∀ i ∈ largestCoefIndices coef, ∀ j, j < coef.length →
      j ∉ largestCoefIndices coef → coefLe coef j i = true) ∧
    (∀ names : List String,
      smallestCoefs names coef =
        (smallestCoefIndices coef).map (fun i => names.getD i "") ∧
      largestCoefs names coef =
        (largestCoefIndices coef).map fun i => names.getD i "") := by
  refine ⟨?_, ?_, ?_, ?_, fun names => ⟨rfl, rfl⟩⟩
  · exact (argsortCoef_sorted coef).sublist (List.take_sublist 10 _)
  · refine List.pairwise_reverse.mpr ?_
    exact (argsortCoef_sorted coef).sublist (List.drop_sublist _ _)
  · intro i hi j hj hnj
    have hsorted := argsortCoef_sorted coef
    rw [← List.take_append_drop 10 (argsortCoef coef)] at hsorted
    obtain ⟨-, -, h3⟩ := List.pairwise_append.mp hsorted
    have hjmem : j ∈ argsortCoef coef := mem_argsortCoef hj
    rw [← List.take_append_drop 10 (argsortCoef coef)] at hjmem
    rcases List.mem_append.mp hjmem with hjt | hjd
    · exact absurd hjt hnj
    · exact h3 i hi j hjd
  · intro i hi j hj hnj
    have hid : i ∈ (argsortCoef coef).drop (coef.length - 10) :=
      List.mem_reverse.mp hi
    have hnjd : j ∉ (argsortCoef coef).drop (coef.length - 10) :=
      fun hc => hnj (List.mem_reverse.mpr hc)
    have hsorted := argsortCoef_sorted coef
    rw [← List.take_append_drop (coef.length - 10) (argsortCoef coef)]
      at hsorted
    obtain ⟨-, -, h3⟩ := List.pairwise_append.mp hsorted
    have hjmem : j ∈ argsortCoef coef := mem_argsortCoef hj
    rw [← List.take_append_drop (coef.length - 10) (argsortCoef coef)]
      at hjmem
    rcases List.mem_append.mp hjmem with hjt | hjd
    · exact h3 j hjt i hid
    · exact absurd hjd hnjd

/-- C7 witness: the minimality clauses applied to the concrete
12-coefficient vector [0, 1, ..., 11], at indices 0 (among the ten
smallest) against 10, and 11 (among the ten largest) against 0. -/
theorem C7_feature_importance_witness :
    coefLe [(0 : ℚ), 1, 2, 3, 4, 5, 6, 7, 8, 9, 10, 11] 0 10 = true ∧
    coefLe [(0 : ℚ), 1, 2, 3, 4, 5, 6, 7, 8, 9, 10, 11] 0 11 = true :=
  ⟨(C7_feature_importance [(0 : ℚ), 1, 2, 3, 4, 5, 6, 7, 8, 9, 10, 11]).2.2.1
      0 (by decide) 10 (by decide) (by decide),
   (C7_feature_importance [(0 : ℚ), 1, 2, 3, 4, 5, 6, 7, 8, 9, 10, 11]).2.2.2.1
      11 (by decide) 0 (by decide) (by decide)⟩

/-- C9: the fitted Vocabulary/Model pair is frozen after fit: running
any sequence of post-fit operations (transform, predict, score) leaves
the fitted state unchanged, so every later operation reads exactly the
state produced by fit. -/
theorem C9_postfit_state_frozen (st : FittedState) (ops : List PipelineOp) :
    runOps st ops = st ∧
    ∀ op, applyOp (runOps st ops) op = applyOp st op := by
  have h : runOps st ops = st := by
    induction ops with
    | nil => rfl
    | cons op ops ih =>
      show runOps (applyOp st op).1 ops = st
      have hfst : (applyOp st op).1 = st := by cases op <;> rfl
      rw [hfst]
      exact ih
  exact ⟨h, fun op => by rw [h]⟩

end SpamClassifier
